import Mathlib

/-!
# Verification of the tpchgen-rs deterministic data generator

This file gives a shallow embedding, in Lean 4, of the arithmetic core of the
tpchgen-rs TPC-H data generator, and proves the specified properties of it:

* the 32-bit multiplicative random number generator and its bounded draw
  (`src/tpchgen/src/rng.rs`, `src/tpchgen/src/textgen.rs`);
* the O(log n) seed fast-forward (`advance_seed` / `advance_rows`);
* the sparse order-key mapping (`OrderGenerator::make_order_key`);
* the part retail price formula (`calculate_part_price`);
* the part-supplier selection formula (`select_part_supplier`);
* the partition bookkeeping (`GenerateUtils::calculate_row_count` /
  `calculate_start_index`);
* the customer-mortality adjustment loop of `OrderGenerator::generate`;
* the `dists.dss` distribution loader (`src/tpchgen/src/distribution.rs`).

Machine integers are embedded as `Int` (or `Nat` for values the source keeps
non-negative), with two's-complement wrapping made explicit where the source
relies on it.  Lean's `%` and `/` on `Int` are Euclidean; on the non-negative
operands arising under the stated hypotheses they agree with Rust's truncated
`%` and `/`, which is noted at each definition.  The `f64` computations of the
bounded draw are embedded exactly, as round-to-nearest-even over `ℚ`.
-/

/-- Two's-complement wrap of an integer into the signed 32-bit range
`[-2^31, 2^31 - 1]`.  This is the effect of Rust's `as i32` cast (and of
release-mode wrapping `i32` arithmetic) on an unbounded integer result. -/
def wrap32 (x : ℤ) : ℤ := (x + 2 ^ 31) % 2 ^ 32 - 2 ^ 31

namespace GenerateUtils

/-! Embeds `GenerateUtils` from `src/tpchgen/src/dates.rs` (lines 22-50).
The source first computes
`let total_row_count = (scale_base as f64 * scale_factor) as i64;`
and then manipulates only that integer; we take the resulting integer
`total_row_count` (the truncated `f64` product, `⌊scale_base × scale_factor⌋`
for the exactly-representable products the generator uses) as the parameter.
All quantities are non-negative (`part`/`part_count` are positive indices), so
`Nat` division and remainder here agree with the source's `i64`/`i32`
arithmetic.  `SupplierGenerator::start_index`/`row_count` in
`src/tpchgen/src/textgen.rs` (lines 1174-1192) are the same computation on
`usize`. -/

/-- `GenerateUtils::calculate_row_count`: rows per part; the last part gets
the remainder. -/
def calculate_row_count (total_row_count part part_count : ℕ) : ℕ :=
  let row_count := total_row_count / part_count
  if part = part_count then row_count + total_row_count % part_count
  else row_count

/-- `GenerateUtils::calculate_start_index`: first (0-based) row index of a
part. -/
def calculate_start_index (total_row_count part part_count : ℕ) : ℕ :=
  let rows_per_part := total_row_count / part_count
  rows_per_part * (part - 1)

end GenerateUtils

namespace OrderGenerator

/-! Embeds order-key sparsification and the customer-mortality adjustment from
`OrderGenerator` in `src/tpchgen/src/textgen.rs`. -/

/-- `OrderGenerator::ORDER_KEY_SPARSE_BITS` (textgen.rs line 1737). -/
def ORDER_KEY_SPARSE_BITS : ℕ := 2

/-- `OrderGenerator::ORDER_KEY_SPARSE_KEEP` (textgen.rs line 1738). -/
def ORDER_KEY_SPARSE_KEEP : ℕ := 3

/-- `OrderGenerator::make_order_key` (textgen.rs lines 1886-1897).  The
source works on `i64`; order indices are ≥ 1 and far below `2^63`, so the
shifts and the mask never meet the sign bit and `Nat` bit operations embed
them exactly. -/
def make_order_key (order_index : ℕ) : ℕ :=
  let low_bits := order_index &&& ((1 <<< ORDER_KEY_SPARSE_KEEP) - 1)
  let ok := order_index
  let ok := ok >>> ORDER_KEY_SPARSE_KEEP
  let ok := ok <<< ORDER_KEY_SPARSE_BITS
  let ok := ok <<< ORDER_KEY_SPARSE_KEEP
  ok + low_bits

/-- `OrderGenerator::CUSTOMER_MORTALITY` (textgen.rs line 1720). -/
def CUSTOMER_MORTALITY : ℤ := 3

/-- The customer-mortality adjustment loop of `OrderGenerator::generate`
(textgen.rs lines 1831-1841):

```
while customer_key % Self::CUSTOMER_MORTALITY as i64 == 0 {
    customer_key += delta;
    if customer_key > max_customer_key { customer_key = max_customer_key; }
    delta *= -1;
}
```

The `while` loop is embedded with explicit fuel: `none` means the fuel ran
out while the loop guard still held, `some r` means the loop exited with
final key `r`.  All values are `i64` in the source; the loop moves the key
by at most 1 per step inside `[1, max_customer_key]`, so plain `ℤ`
arithmetic embeds it exactly. -/
def mortality_adjust (fuel : ℕ) (max_customer_key customer_key delta : ℤ) :
    Option ℤ :=
  match fuel with
  | 0 => if customer_key % CUSTOMER_MORTALITY = 0 then none else some customer_key
  | fuel + 1 =>
    if customer_key % CUSTOMER_MORTALITY = 0 then
      let customer_key := customer_key + delta
      let customer_key :=
        if max_customer_key < customer_key then max_customer_key else customer_key
      mortality_adjust fuel max_customer_key customer_key (-delta)
    else some customer_key

end OrderGenerator

namespace PartGeneratorIterator

/-- `PartGeneratorIterator::calculate_part_price` from
`src/tpchgen/src/generators.rs` (lines 452-460); the identical cents
computation appears as `calculate_part_price` in `src/tpchgen/src/textgen.rs`
(lines 1446-1455), which then divides by 100 for `p_retailprice`.  The source
type is `i64`; part keys are ≥ 1, so Euclidean `/` and `%` agree with Rust
here. -/
def calculate_part_price (part_key : ℤ) : ℤ :=
  let price : ℤ := 90000
  let price := price + part_key / 10 % 20001
  let price := price + part_key % 1000 * 100
  price

end PartGeneratorIterator

namespace PartSuppGenerator

/-- `PartSuppGenerator::SUPPLIERS_PER_PART` (textgen.rs line 1522). -/
def SUPPLIERS_PER_PART : ℤ := 4

/-- `PartSuppGenerator::select_part_supplier` (textgen.rs lines 1572-1583).
The source first computes
`let supplier_count = (SupplierGenerator::SCALE_BASE as f64 * scale_factor) as i64;`
i.e. `⌊10000 × SF⌋`; we take that integer as the parameter `supplier_count`.
Under the hypotheses of the theorems below every operand of `/` and `%` is
non-negative, where Lean's Euclidean operators agree with Rust's truncated
ones. -/
def select_part_supplier (part_key supplier_number supplier_count : ℤ) : ℤ :=
  let supplier_index := part_key +
    supplier_number *
      (supplier_count / SUPPLIERS_PER_PART + (part_key - 1) / supplier_count)
  supplier_index % supplier_count + 1

end PartSuppGenerator

/-- Round a rational to the nearest integer, ties to even: the rounding IEEE
754 applies to an infinitely-precise significand. -/
def rne (t : ℚ) : ℤ :=
  let f := ⌊t⌋
  let frac := t - f
  if frac < 1 / 2 then f
  else if 1 / 2 < frac then f + 1
  else if f % 2 = 0 then f else f + 1

/-- Round a positive rational to the nearest IEEE 754 binary64 value
(round-to-nearest-even), as an exact rational: scale into the 53-bit binade
`[2^52, 2^53)` given by the base-2 logarithm, round the scaled significand to
an integer with ties to even, and scale back.  All values in this development
lie well inside the normal finite range, where this is exactly the `f64`
rounding the Rust source performs. -/
def fl64_pos (q : ℚ) : ℚ :=
  let e := Int.log 2 q
  (rne (q * 2 ^ ((52 : ℤ) - e)) : ℚ) * 2 ^ (e - (52 : ℤ))

/-- Round any rational to the nearest IEEE 754 binary64 value.  Zero is
exact; negative values round symmetrically (round-to-nearest-even is an odd
function). -/
def fl64 (q : ℚ) : ℚ :=
  if q = 0 then 0 else if 0 < q then fl64_pos q else -fl64_pos (-q)

/-- Rust's `as i32` cast from `f64`: truncate toward zero and saturate to the
`i32` range.  (The argument is never NaN in this development.) -/
def f64_to_i32 (q : ℚ) : ℤ :=
  max (-2 ^ 31) (min (2 ^ 31 - 1) (if 0 ≤ q then ⌊q⌋ else ⌈q⌉))

namespace TpchRng

/-! Embeds the 32-bit multiplicative congruential generator `TpchRng` from
`src/tpchgen/src/rng.rs`; `AbstractRandomInt` in `src/tpchgen/src/textgen.rs`
(lines 9-93) is the same machine with the same constants.  The seed is an
`i64` kept in `[0, 2^31 - 2]` by every step, so seed arithmetic never
overflows `i64` and plain `ℤ` embeds it exactly; Lean's Euclidean `%` agrees
with Rust's on these non-negative values. -/

/-- `TpchRng::MULTIPLIER` (rnd.h constant 16807). -/
def MULTIPLIER : ℤ := 16807

/-- `TpchRng::MODULUS` (2^31 - 1). -/
def MODULUS : ℤ := 2147483647

/-- `TpchRng::next_rand` seed update (rng.rs line 57):
`self.seed = (self.seed * Self::MULTIPLIER) % Self::MODULUS`.  The usage
counter it also increments is bookkeeping for a debug assertion and does not
affect the seed; it is omitted here. -/
def next_rand (seed : ℤ) : ℤ := seed * MULTIPLIER % MODULUS

/-- The loop of `TpchRng::advance_seed` (rng.rs lines 80-89), parameterised
by the running `multiplier` and the remaining `count` (an `i64` that is
non-negative at every call site, hence `ℕ`):

```
while count > 0 {
    if count % 2 != 0 { self.seed = (multiplier * self.seed) % Self::MODULUS; }
    count /= 2;
    multiplier = (multiplier * multiplier) % Self::MODULUS;
}
```
-/
def advance_seed_loop (seed multiplier : ℤ) (count : ℕ) : ℤ :=
  if h : count = 0 then seed
  else
    advance_seed_loop
      (if count % 2 ≠ 0 then multiplier * seed % MODULUS else seed)
      (multiplier * multiplier % MODULUS)
      (count / 2)
termination_by count
decreasing_by exact Nat.div_lt_self (Nat.pos_of_ne_zero h) one_lt_two

/-- `TpchRng::advance_seed` (rng.rs lines 80-89): the loop above started with
`multiplier = MULTIPLIER`. -/
def advance_seed (seed : ℤ) (count : ℕ) : ℤ :=
  advance_seed_loop seed MULTIPLIER count

/-- `TpchRng::row_finished` (rng.rs lines 74-77), acting on the seed:
advance by the unused part of the per-row budget. -/
def row_finished (seed : ℤ) (expected_usage_per_row usage : ℕ) : ℤ :=
  advance_seed seed (expected_usage_per_row - usage)

/-- `TpchRng::advance_rows` (rng.rs lines 64-70), acting on the seed: finish
the current row if it is partly used, then skip `row_count` whole rows. -/
def advance_rows (seed : ℤ) (expected_usage_per_row usage row_count : ℕ) : ℤ :=
  if usage ≠ 0 then
    advance_seed (row_finished seed expected_usage_per_row usage)
      (expected_usage_per_row * row_count)
  else
    advance_seed seed (expected_usage_per_row * row_count)

/-- `TpchRng::next_int` (rng.rs lines 32-45), returning the drawn value
together with the updated seed:

```
let _ = self.next_rand();
let range = ((upper_bound - lower_bound) as i64 + 1) as i32;
let value_in_range =
    (((1. * self.seed as f64) / Self::MODULUS as f64) * range as f64) as i32;
lower_bound + value_in_range
```

The `i32` subtraction wraps; widening to `i64` and adding 1 is exact, and the
final `as i32` wraps again.  `1. * seed as f64` and the `as f64` casts of
seed, modulus and range are exact (all are integers below `2^53` in
magnitude), so the only `f64` roundings are the division and the
multiplication, embedded with `fl64`; the final `as i32` cast and `i32`
addition are `f64_to_i32` and `wrap32`. -/
def next_int (seed lower_bound upper_bound : ℤ) : ℤ × ℤ :=
  let seed := next_rand seed
  let range := wrap32 (wrap32 (upper_bound - lower_bound) + 1)
  let value_in_range :=
    f64_to_i32 (fl64 (fl64 ((seed : ℚ) / (MODULUS : ℚ)) * (range : ℚ)))
  (wrap32 (lower_bound + value_in_range), seed)

end TpchRng

namespace AbstractRandomInt

/-- `AbstractRandomInt::next_int` (textgen.rs lines 31-45), returning the
drawn value together with the updated seed:

```
self.next_rand();
let int_range = (high_value - low_value + 1) as i64;
let double_range = int_range as f64;
let value_in_range = ((1.0 * self.seed as f64 / self.modulus as f64) * double_range) as i32;
low_value + value_in_range
```

Both `i32` operations of `high_value - low_value + 1` wrap, the widening
casts are exact, and the `f64` arithmetic is the same division and
multiplication as in `TpchRng::next_int`. -/
def next_int (seed low_value high_value : ℤ) : ℤ × ℤ :=
  let seed := TpchRng.next_rand seed
  let int_range := wrap32 (wrap32 (high_value - low_value) + 1)
  let double_range : ℚ := (int_range : ℚ)
  let value_in_range :=
    f64_to_i32 (fl64 (fl64 ((seed : ℚ) / (TpchRng.MODULUS : ℚ)) * double_range))
  (wrap32 (low_value + value_in_range), seed)

end AbstractRandomInt

/-! ## The distribution loader (`src/tpchgen/src/distribution.rs`)

`DistributionParser::parse` reads the `dists.dss` text line by line; the `IO`
layer (`reader.lines()`) is embedded as a pure list of input lines.  Rust
strings are embedded as `List Char` (Lean's packed `String` primitives do not
reduce in the kernel), with the handful of `str` methods the source uses
(`trim`, `starts_with`, `split('|')`, `parse`) defined structurally below.
The `HashMap<String, Distribution>` is embedded as an association list (keys
are never inserted twice: a `BEGIN` for an already-stored name errors before
any second insert).  Error messages built with `format!` in the source are
abbreviated to their interesting payload; the claims only distinguish error
constructors. -/

/-- Rust `str::trim`: remove leading and trailing whitespace. -/
def str_trim (s : List Char) : List Char :=
  ((s.dropWhile Char.isWhitespace).reverse.dropWhile Char.isWhitespace).reverse

/-- Rust `str::starts_with`. -/
def str_startsWith (s p : List Char) : Bool := p.isPrefixOf s

/-- Rust `str::split(sep)` for a single-character separator: every
occurrence splits, empty pieces are kept, and splitting always yields at
least one piece. -/
def str_splitOn (sep : Char) : List Char → List Char → List (List Char)
  | [], acc => [acc.reverse]
  | c :: rest, acc =>
    if c = sep then acc.reverse :: str_splitOn sep rest []
    else str_splitOn sep rest (c :: acc)

/-- The digit string value underlying Rust's integer `parse`: `some` of the
decimal value when the list is one or more ASCII digits, `none` otherwise. -/
def chars_toNat? (s : List Char) : Option ℕ :=
  if s ≠ [] ∧ s.all Char.isDigit then
    some (s.foldl (fun n c => n * 10 + (c.toNat - '0'.toNat)) 0)
  else none

/-- Rust's `str::parse::<i32>()`: an optional `+`/`-` sign, one or more
ASCII digits, and the value must fit in `i32`; anything else is an error
(`none`). -/
def parse_i32 (s : List Char) : Option ℤ :=
  match s with
  | '-' :: rest =>
    (chars_toNat? rest).bind fun n =>
      if (n : ℤ) ≤ 2 ^ 31 then some (-(n : ℤ)) else none
  | '+' :: rest =>
    (chars_toNat? rest).bind fun n =>
      if (n : ℤ) ≤ 2 ^ 31 - 1 then some (n : ℤ) else none
  | _ =>
    (chars_toNat? s).bind fun n =>
      if (n : ℤ) ≤ 2 ^ 31 - 1 then some (n : ℤ) else none

/-- Rust's `str::parse::<usize>()`: an optional `+` sign, one or more ASCII
digits, value below `2^64` (64-bit `usize`). -/
def parse_usize (s : List Char) : Option ℕ :=
  match s with
  | '+' :: rest => (chars_toNat? rest).bind fun n =>
      if n < 2 ^ 64 then some n else none
  | _ => (chars_toNat? s).bind fun n =>
      if n < 2 ^ 64 then some n else none

/-- `DistributionType` (distribution.rs lines 40-51). -/
inductive DistributionType where
  | Regular
  | Adjustment
  | Restricted
  | Grammar
  | TextGen
deriving DecidableEq, Repr

/-- `DistributionEntry` (distribution.rs lines 34-38): the weight is an
`i32`; `parse_i32` above only produces values in the `i32` range. -/
structure DistributionEntry where
  value : List Char
  weight : ℤ
deriving DecidableEq, Repr

/-- `Distribution` (distribution.rs lines 26-32). -/
structure Distribution where
  name : List Char
  count : ℕ
  entries : List DistributionEntry
  dist_type : DistributionType
deriving DecidableEq, Repr

/-- `DistParserError` (distribution.rs lines 8-24); the `IoError` variant
cannot arise once the input is a pure list of lines. -/
inductive DistParserError where
  | InvalidFormat (msg : List Char)
  | MissingCount
  | DuplicateDistribution (name : List Char)
  | EmptyDistribution (name : List Char)
  | InvalidWeight (msg : List Char)
  | ParseError (msg : List Char)
deriving DecidableEq, Repr

namespace DistributionParser

/-- `DistributionParser::determine_distribution_type`
(distribution.rs lines 237-245). -/
def determine_distribution_type (name : List Char) : DistributionType :=
  if name = "nations".data then .Adjustment
  else if name = "colors".data then .Restricted
  else if name = "grammar".data ∨ name = "np".data ∨ name = "vp".data then
    .Grammar
  else if name = "nouns".data ∨ name = "verbs".data ∨ name = "adverbs".data ∨
      name = "adjectives".data ∨ name = "articles".data ∨
      name = "prepositions".data ∨ name = "auxillaries".data ∨
      name = "terminators".data then
    .TextGen
  else .Regular

/-- The `for line in lines` loop of
`DistributionParser::validate_and_store_distribution`
(distribution.rs lines 186-216), threading the running `dist.count` and
`dist.entries`:

* a `COUNT|`-prefixed line re-parses the count (errors are `InvalidFormat`);
* a `#`-comment line is skipped;
* a line splitting into at least two `|`-separated pieces becomes an entry
  whose weight is `parts[1].trim().parse::<i32>()` (`InvalidWeight` on
  failure, and also when a `Regular` distribution has weight ≤ 0);
* any other line is silently ignored. -/
def process_entry_lines (dist_type : DistributionType) :
    List (List Char) → ℕ → List DistributionEntry →
      Except DistParserError (ℕ × List DistributionEntry)
  | [], count, entries => .ok (count, entries)
  | line :: rest, count, entries =>
    if str_startsWith line "COUNT|".data then
      match (str_splitOn '|' line []).get? 1 with
      | none => .error (.InvalidFormat "Invalid COUNT format".data)
      | some piece =>
        match parse_usize piece with
        | none => .error (.InvalidFormat "Invalid COUNT value".data)
        | some n => process_entry_lines dist_type rest n entries
    else if str_startsWith line "#".data then
      process_entry_lines dist_type rest count entries
    else
      let parts := str_splitOn '|' line []
      if 2 ≤ parts.length then
        match parse_i32 (str_trim (parts.getD 1 [])) with
        | none => .error (.InvalidWeight (parts.getD 1 []))
        | some weight =>
          if dist_type = .Regular ∧ weight ≤ 0 then
            .error (.InvalidWeight (parts.getD 1 []))
          else
            process_entry_lines dist_type rest count
              (entries ++ [⟨parts.getD 0 [], weight⟩])
      else
        process_entry_lines dist_type rest count entries

/-- `DistributionParser::validate_and_store_distribution`
(distribution.rs lines 169-231): fix the distribution type from the name,
reject an empty block, process the collected lines, then require a non-zero
declared count matching the number of entries, and only then store. -/
def validate_and_store_distribution
    (stored : List (List Char × Distribution)) (dist : Distribution)
    (lines : List (List Char)) :
    Except DistParserError (List (List Char × Distribution)) :=
  let dtype := determine_distribution_type dist.name
  if lines.isEmpty then .error (.EmptyDistribution dist.name)
  else
    match process_entry_lines dtype lines dist.count dist.entries with
    | .error e => .error e
    | .ok (count, entries) =>
      if count = 0 then .error .MissingCount
      else if entries.length ≠ count then
        .error (.InvalidFormat "Entry count mismatch".data)
      else
        .ok ((dist.name, ⟨dist.name, count, entries, dtype⟩) :: stored)

/-- The loop state of `DistributionParser::parse`
(distribution.rs lines 129-167): the distributions stored so far, the
currently open block (if any), and its collected lines. -/
structure ParseState where
  distributions : List (List Char × Distribution)
  current_dist : Option Distribution
  current_lines : List (List Char)
deriving DecidableEq, Repr

/-- One iteration of the `for line in reader.lines()` loop of
`DistributionParser::parse` (distribution.rs lines 133-163):

* comments and blank lines are skipped only while no block is open;
* `BEGIN <name>` errors if `<name>` is already stored, otherwise opens a
  fresh block (silently discarding any block still open);
* `END <name>` validates and stores the open block, or just clears the
  collected lines when no block is open;
* any other non-empty line is collected. -/
def parse_line (st : ParseState) (line : List Char) :
    Except DistParserError ParseState :=
  let trimmed := str_trim line
  if st.current_dist.isNone ∧ (str_startsWith trimmed "#".data ∨ trimmed = []) then
    .ok st
  else if str_startsWith trimmed "BEGIN ".data then
    let name := str_trim (trimmed.drop 6)
    if (st.distributions.lookup name).isSome then
      .error (.DuplicateDistribution name)
    else
      .ok ⟨st.distributions, some ⟨name, 0, [], .Regular⟩, []⟩
  else if str_startsWith trimmed "END ".data then
    match st.current_dist with
    | some dist =>
      match validate_and_store_distribution st.distributions dist
          st.current_lines with
      | .error e => .error e
      | .ok stored => .ok ⟨stored, none, []⟩
    | none => .ok ⟨st.distributions, none, []⟩
  else if trimmed ≠ [] then
    .ok ⟨st.distributions, st.current_dist, st.current_lines ++ [trimmed]⟩
  else
    .ok st

/-- `DistributionParser::parse` (distribution.rs lines 129-167) on a pure
list of input lines, returning the stored distributions.  (The source
returns `Ok(())` and keeps the map in `self`; the map is the result here.)
A block still open when the input ends is discarded unvalidated, exactly as
in the source. -/
def parse (input : List (List Char)) :
    Except DistParserError (List (List Char × Distribution)) :=
  (input.foldlM parse_line ⟨[], none, []⟩).map ParseState.distributions

/-- An entry line whose weight fails to parse as an `i32`, or parses to a
non-positive weight in a `Regular` distribution: `validate_and_store`
necessarily rejects any block containing such a line. -/
def bad_weight_line (dist_type : DistributionType) (line : List Char) : Bool :=
  !str_startsWith line "COUNT|".data &&
  !str_startsWith line "#".data &&
  decide (2 ≤ (str_splitOn '|' line []).length) &&
  (match parse_i32 (str_trim ((str_splitOn '|' line []).getD 1 [])) with
   | none => true
   | some weight => decide (dist_type = .Regular) && decide (weight ≤ 0))

end DistributionParser

/-! ## Helper lemmas -/

/-- The mortality loop returns immediately once the key is no longer a
multiple of `CUSTOMER_MORTALITY`, whatever fuel remains. -/
theorem mortality_adjust_exit (fuel : ℕ) (m c d : ℤ)
    (hc : ¬c % OrderGenerator.CUSTOMER_MORTALITY = 0) :
    OrderGenerator.mortality_adjust fuel m c d = some c := by
  cases fuel <;> simp [OrderGenerator.mortality_adjust, hc]

/-- One iteration of the mortality loop while the guard holds: add the
delta, clamp to the maximum key, flip the delta. -/
theorem mortality_adjust_step (fuel : ℕ) (m c d : ℤ)
    (hc : c % OrderGenerator.CUSTOMER_MORTALITY = 0) :
    OrderGenerator.mortality_adjust (fuel + 1) m c d =
      OrderGenerator.mortality_adjust fuel m (if m < c + d then m else c + d)
        (-d) := by
  conv_lhs => rw [OrderGenerator.mortality_adjust]
  simp [hc]

/-- Reducing modulo `n` is the identity on residues: `a % n ≡ a [ZMOD n]`. -/
theorem emod_modEq_self (a n : ℤ) : a % n ≡ a [ZMOD n] :=
  Int.emod_emod_of_dvd a dvd_rfl

/-- The binary-exponentiation loop of `advance_seed` computes
`seed * multiplier ^ count` modulo `MODULUS`, for any positive count. -/
theorem advance_seed_loop_eq :
    ∀ c : ℕ, c ≠ 0 → ∀ m s : ℤ,
      TpchRng.advance_seed_loop s m c = s * m ^ c % TpchRng.MODULUS := by
  intro c
  induction c using Nat.strong_induction_on with
  | _ c ih =>
    intro hc m s
    rw [TpchRng.advance_seed_loop, dif_neg hc]
    by_cases hodd : c % 2 ≠ 0
    · rw [if_pos hodd]
      by_cases hz : c / 2 = 0
      · have hc1 : c = 1 := by omega
        subst hc1
        norm_num
        rw [TpchRng.advance_seed_loop]
        norm_num [mul_comm]
      · rw [ih (c / 2) (Nat.div_lt_self (Nat.pos_of_ne_zero hc) one_lt_two) hz]
        have h1 : (m * s % TpchRng.MODULUS) *
              ((m * m % TpchRng.MODULUS) ^ (c / 2)) % TpchRng.MODULUS
            = (m * s) * ((m * m) ^ (c / 2)) % TpchRng.MODULUS :=
          (emod_modEq_self (m * s) TpchRng.MODULUS).mul
            ((emod_modEq_self (m * m) TpchRng.MODULUS).pow (c / 2))
        rw [h1]
        conv_rhs => rw [show c = 2 * (c / 2) + 1 by omega]
        congr 1
        ring
    · rw [if_neg hodd]
      push_neg at hodd
      have hz : c / 2 ≠ 0 := by omega
      rw [ih (c / 2) (Nat.div_lt_self (Nat.pos_of_ne_zero hc) one_lt_two) hz]
      have h1 : s * ((m * m % TpchRng.MODULUS) ^ (c / 2)) % TpchRng.MODULUS
          = s * ((m * m) ^ (c / 2)) % TpchRng.MODULUS :=
        (Int.ModEq.refl s).mul
          ((emod_modEq_self (m * m) TpchRng.MODULUS).pow (c / 2))
      rw [h1]
      conv_rhs => rw [show c = 2 * (c / 2) by omega]
      congr 1
      ring

/-- `n` sequential `next_rand` steps compute `seed * MULTIPLIER ^ n` modulo
`MODULUS`, for any positive `n`. -/
theorem next_rand_iterate (s : ℤ) :
    ∀ n : ℕ, n ≠ 0 →
      TpchRng.next_rand^[n] s = s * TpchRng.MULTIPLIER ^ n % TpchRng.MODULUS := by
  intro n
  induction n with
  | zero => simp
  | succ k ih =>
    intro _
    by_cases hk : k = 0
    · subst hk
      simp [TpchRng.next_rand]
    · rw [Function.iterate_succ_apply', ih hk]
      unfold TpchRng.next_rand
      have h1 : (s * TpchRng.MULTIPLIER ^ k % TpchRng.MODULUS) *
            TpchRng.MULTIPLIER % TpchRng.MODULUS
          = (s * TpchRng.MULTIPLIER ^ k) * TpchRng.MULTIPLIER %
              TpchRng.MODULUS :=
        (emod_modEq_self (s * TpchRng.MULTIPLIER ^ k) TpchRng.MODULUS).mul
          (Int.ModEq.refl TpchRng.MULTIPLIER)
      rw [h1, pow_succ]
      congr 1
      ring

theorem zpow53_cast : (2:ℚ)^((53:ℤ)) = ((2^53 : ℤ) : ℚ) := by norm_num

theorem rne_ge_floor (t : ℚ) : ⌊t⌋ ≤ rne t := by
  simp only [rne]
  split_ifs <;> omega

theorem rne_le_floor_add_one (t : ℚ) : rne t ≤ ⌊t⌋ + 1 := by
  simp only [rne]
  split_ifs <;> omega

theorem rne_le_half (t : ℚ) : (rne t : ℚ) ≤ t + 1/2 := by
  have hf := Int.floor_le t
  have hf2 := Int.lt_floor_add_one t
  simp only [rne]
  split_ifs <;> push_cast <;> linarith

theorem rne_ge_half (t : ℚ) : t - 1/2 ≤ (rne t : ℚ) := by
  have hf := Int.floor_le t
  have hf2 := Int.lt_floor_add_one t
  simp only [rne]
  split_ifs <;> push_cast <;> linarith

theorem rne_mono {t₁ t₂ : ℚ} (h : t₁ ≤ t₂) : rne t₁ ≤ rne t₂ := by
  have hf : ⌊t₁⌋ ≤ ⌊t₂⌋ := Int.floor_le_floor h
  rcases eq_or_lt_of_le hf with heq | hlt
  · have hc1 := Int.floor_le t₁
    have hc2 := Int.lt_floor_add_one t₂
    simp only [rne, ← heq]
    split_ifs <;> first | omega | linarith
  · have h1 := rne_le_floor_add_one t₁
    have h2 := rne_ge_floor t₂
    omega

theorem two_zpow_mul (a b : ℤ) : (2:ℚ)^a * (2:ℚ)^b = (2:ℚ)^(a + b) :=
  (zpow_add₀ two_ne_zero a b).symm

theorem fl64_pos_scaled_lower {q : ℚ} (hq : 0 < q) :
    (2:ℚ)^((52:ℤ)) ≤ q * 2 ^ ((52:ℤ) - Int.log 2 q) := by
  have hlog : ((2:ℕ):ℚ) ^ (Int.log 2 q) ≤ q :=
    Int.zpow_log_le_self Nat.one_lt_two hq
  rw [Nat.cast_ofNat] at hlog
  have hpow : (0:ℚ) < 2 ^ ((52:ℤ) - Int.log 2 q) := by positivity
  calc (2:ℚ)^((52:ℤ)) = 2^(Int.log 2 q) * 2^((52:ℤ) - Int.log 2 q) := by
        rw [two_zpow_mul]; congr 1; ring
    _ ≤ q * 2^((52:ℤ) - Int.log 2 q) :=
        mul_le_mul_of_nonneg_right hlog (le_of_lt hpow)

theorem fl64_pos_scaled_upper (q : ℚ) :
    q * 2 ^ ((52:ℤ) - Int.log 2 q) < (2:ℚ)^((53:ℤ)) := by
  have hlog : q < ((2:ℕ):ℚ) ^ (Int.log 2 q + 1) :=
    Int.lt_zpow_succ_log_self Nat.one_lt_two q
  rw [Nat.cast_ofNat] at hlog
  have hpow : (0:ℚ) < 2 ^ ((52:ℤ) - Int.log 2 q) := by positivity
  calc q * 2^((52:ℤ) - Int.log 2 q)
      < 2^(Int.log 2 q + 1) * 2^((52:ℤ) - Int.log 2 q) :=
        mul_lt_mul_of_pos_right hlog hpow
    _ = (2:ℚ)^((53:ℤ)) := by rw [two_zpow_mul]; congr 1; ring

theorem fl64_pos_m_le (q : ℚ) :
    rne (q * 2 ^ ((52:ℤ) - Int.log 2 q)) ≤ 2^53 := by
  have h1 := rne_le_half (q * 2 ^ ((52:ℤ) - Int.log 2 q))
  have h2 := fl64_pos_scaled_upper q
  have h3 : (rne (q * 2 ^ ((52:ℤ) - Int.log 2 q)) : ℚ) < ((2^53 : ℤ) : ℚ) + 1 := by
    rw [← zpow53_cast]; linarith
  have h4 : rne (q * 2 ^ ((52:ℤ) - Int.log 2 q)) < 2^53 + 1 := by exact_mod_cast h3
  omega

theorem fl64_pos_m_ge {q : ℚ} (hq : 0 < q) :
    2^52 ≤ rne (q * 2 ^ ((52:ℤ) - Int.log 2 q)) := by
  have h1 := rne_ge_half (q * 2 ^ ((52:ℤ) - Int.log 2 q))
  have h2 := fl64_pos_scaled_lower hq
  have hc : ((2^52 - 1 : ℤ) : ℚ) < (rne (q * 2 ^ ((52:ℤ) - Int.log 2 q)) : ℚ) := by
    have hcast : ((2^52 - 1 : ℤ) : ℚ) = (2:ℚ)^((52:ℤ)) - 1 := by norm_num
    rw [hcast]; linarith
  have h4 : (2^52 - 1 : ℤ) < rne (q * 2 ^ ((52:ℤ) - Int.log 2 q)) := by exact_mod_cast hc
  omega

theorem fl64_pos_lower {q : ℚ} (hq : 0 < q) :
    (2:ℚ) ^ (Int.log 2 q) ≤ fl64_pos q := by
  have hm := fl64_pos_m_ge hq
  have hmq : ((2^52 : ℤ) : ℚ) ≤ (rne (q * 2 ^ ((52:ℤ) - Int.log 2 q)) : ℚ) := by
    exact_mod_cast hm
  have hpow : (0:ℚ) < 2 ^ (Int.log 2 q - (52:ℤ)) := by positivity
  unfold fl64_pos
  calc (2:ℚ)^(Int.log 2 q)
      = ((2^52 : ℤ) : ℚ) * 2^(Int.log 2 q - (52:ℤ)) := by
        rw [show ((2^52 : ℤ) : ℚ) = (2:ℚ)^((52:ℤ)) by norm_num, two_zpow_mul]
        congr 1; ring
    _ ≤ (rne (q * 2 ^ ((52:ℤ) - Int.log 2 q)) : ℚ) * 2^(Int.log 2 q - (52:ℤ)) :=
        mul_le_mul_of_nonneg_right hmq (le_of_lt hpow)

theorem fl64_pos_upper (q : ℚ) :
    fl64_pos q ≤ (2:ℚ) ^ (Int.log 2 q + 1) := by
  have hm : rne (q * 2 ^ ((52:ℤ) - Int.log 2 q)) ≤ 2^53 := fl64_pos_m_le q
  have hmq : (rne (q * 2 ^ ((52:ℤ) - Int.log 2 q)) : ℚ) ≤ ((2^53 : ℤ) : ℚ) := by
    exact_mod_cast hm
  have hpow : (0:ℚ) < 2 ^ (Int.log 2 q - (52:ℤ)) := by positivity
  unfold fl64_pos
  calc (rne (q * 2 ^ ((52:ℤ) - Int.log 2 q)) : ℚ) * 2^(Int.log 2 q - (52:ℤ))
      ≤ ((2^53 : ℤ) : ℚ) * 2^(Int.log 2 q - (52:ℤ)) :=
        mul_le_mul_of_nonneg_right hmq (le_of_lt hpow)
    _ = (2:ℚ)^(Int.log 2 q + 1) := by
        rw [show ((2^53 : ℤ) : ℚ) = (2:ℚ)^((53:ℤ)) by norm_num, two_zpow_mul]
        congr 1; ring

theorem two_zpow_log_le {q : ℚ} (hq : 0 < q) : (2:ℚ)^(Int.log 2 q) ≤ q := by
  have h := Int.zpow_log_le_self Nat.one_lt_two hq
  rwa [Nat.cast_ofNat] at h

theorem lt_two_zpow_log_succ (q : ℚ) : q < (2:ℚ)^(Int.log 2 q + 1) := by
  have h := Int.lt_zpow_succ_log_self Nat.one_lt_two q
  rwa [Nat.cast_ofNat] at h

theorem fl64_pos_mono {q₁ q₂ : ℚ} (h1 : 0 < q₁) (h : q₁ ≤ q₂) :
    fl64_pos q₁ ≤ fl64_pos q₂ := by
  have h2 : 0 < q₂ := lt_of_lt_of_le h1 h
  have he : Int.log 2 q₁ ≤ Int.log 2 q₂ := Int.log_mono_right h1 h
  rcases eq_or_lt_of_le he with heq | hlt
  · unfold fl64_pos
    rw [← heq]
    have hpow : (0:ℚ) < 2^((52:ℤ) - Int.log 2 q₁) := by positivity
    have hsc : q₁ * 2^((52:ℤ) - Int.log 2 q₁) ≤ q₂ * 2^((52:ℤ) - Int.log 2 q₁) :=
      mul_le_mul_of_nonneg_right h (le_of_lt hpow)
    have hmono := rne_mono hsc
    have hpow' : (0:ℚ) ≤ 2^(Int.log 2 q₁ - (52:ℤ)) := by positivity
    exact mul_le_mul_of_nonneg_right (by exact_mod_cast hmono) hpow'
  · calc fl64_pos q₁ ≤ 2^(Int.log 2 q₁ + 1) := fl64_pos_upper q₁
      _ ≤ (2:ℚ)^(Int.log 2 q₂) := zpow_le_zpow_right₀ (by norm_num) (by omega)
      _ ≤ fl64_pos q₂ := fl64_pos_lower h2

theorem fl64_zero : fl64 0 = 0 := by simp [fl64]

theorem fl64_of_pos {q : ℚ} (h : 0 < q) : fl64 q = fl64_pos q := by
  unfold fl64
  rw [if_neg (ne_of_gt h), if_pos h]

theorem fl64_nonneg {q : ℚ} (h : 0 ≤ q) : 0 ≤ fl64 q := by
  rcases eq_or_lt_of_le h with h0 | hp
  · rw [← h0, fl64_zero]
  · rw [fl64_of_pos hp]
    have h1 := fl64_pos_lower hp
    have h2 : (0:ℚ) < 2^(Int.log 2 q) := by positivity
    linarith

theorem fl64_mono_nonneg {q₁ q₂ : ℚ} (h0 : 0 ≤ q₁) (h : q₁ ≤ q₂) :
    fl64 q₁ ≤ fl64 q₂ := by
  rcases eq_or_lt_of_le h0 with hz | hp
  · rw [← hz, fl64_zero]
    exact fl64_nonneg (le_trans h0 h)
  · rw [fl64_of_pos hp, fl64_of_pos (lt_of_lt_of_le hp h)]
    exact fl64_pos_mono hp h

theorem fl64_pos_lt_bound {t : ℚ} {r : ℤ} (hr1 : 1 ≤ r) (hr2 : r ≤ 2147483647)
    (ht0 : 0 < t) (ht : t ≤ (r:ℚ) - (r:ℚ) / 2147483648) :
    fl64_pos t < (r:ℚ) := by
  have hrQ1 : (1:ℚ) ≤ (r:ℚ) := by exact_mod_cast hr1
  have hrQ2 : (r:ℚ) ≤ 2147483647 := by exact_mod_cast hr2
  have hrpos : (0:ℚ) < (r:ℚ) / 2147483648 := by positivity
  have htr : t < (r:ℚ) := by linarith
  have hA1 : (2:ℚ)^(Int.log 2 t) ≤ t := two_zpow_log_le ht0
  have hA2 : t < (2:ℚ)^(Int.log 2 t + 1) := lt_two_zpow_log_succ t
  have hml := rne_le_half (t * 2^((52:ℤ) - Int.log 2 t))
  have hmg := rne_ge_half (t * 2^((52:ℤ) - Int.log 2 t))
  rcases le_or_lt ((2:ℚ)^(Int.log 2 t + 1)) (r:ℚ) with hA | hB
  · -- the range reaches past the binade of t
    rcases eq_or_lt_of_le (fl64_pos_m_le t) with hm_eq | hm_lt
    · -- the significand rounded all the way up to 2^53
      have hmq : (rne (t * 2^((52:ℤ) - Int.log 2 t)) : ℚ) = (2:ℚ)^((53:ℤ)) := by
        rw [zpow53_cast]; exact_mod_cast hm_eq
      have ht_ge : (2:ℚ)^(Int.log 2 t + 1) - 2^(Int.log 2 t - 53) ≤ t := by
        have hstep : (2:ℚ)^((53:ℤ)) - 1/2 ≤ t * 2^((52:ℤ) - Int.log 2 t) := by
          rw [← hmq]; linarith
        have hpos : (0:ℚ) < 2^(Int.log 2 t - (52:ℤ)) := by positivity
        have := mul_le_mul_of_nonneg_right hstep (le_of_lt hpos)
        have hc1 : (2:ℚ)^((53:ℤ)) * 2^(Int.log 2 t - (52:ℤ))
            = 2^(Int.log 2 t + 1) := by rw [two_zpow_mul]; congr 1; ring
        have hc2 : (1/2 : ℚ) * 2^(Int.log 2 t - (52:ℤ))
            = 2^(Int.log 2 t - 53) := by
          rw [show (1/2 : ℚ) = (2:ℚ)^(-1 : ℤ) by norm_num, two_zpow_mul]
          congr 1; ring
        have hc3 : t * 2^((52:ℤ) - Int.log 2 t) * 2^(Int.log 2 t - (52:ℤ))
            = t := by
          rw [mul_assoc, two_zpow_mul, show (52:ℤ) - Int.log 2 t + (Int.log 2 t - 52) = 0 by ring,
            zpow_zero, mul_one]
        nlinarith [this, hc1, hc2, hc3]
      rcases eq_or_lt_of_le hA with hreq | hrlt
      · exfalso
        have hr31 : (r:ℚ) / 2147483648 = (2:ℚ)^(Int.log 2 t - 30) := by
          rw [← hreq, show (2147483648:ℚ) = (2:ℚ)^((31:ℤ)) by norm_num,
            ← zpow_sub₀ (two_ne_zero)]
          congr 1; ring
        have hcmp : (2:ℚ)^(Int.log 2 t - 53) < 2^(Int.log 2 t - 30) :=
          zpow_lt_zpow_right₀ (by norm_num) (by omega)
        rw [hr31] at ht
        rw [← hreq] at ht
        linarith
      · exact lt_of_le_of_lt (fl64_pos_upper t) hrlt
    · -- significand at most 2^53 - 1
      have hmq : (rne (t * 2^((52:ℤ) - Int.log 2 t)) : ℚ) < (2:ℚ)^((53:ℤ)) := by
        rw [zpow53_cast]; exact_mod_cast hm_lt
      unfold fl64_pos
      have hpos : (0:ℚ) < 2^(Int.log 2 t - (52:ℤ)) := by positivity
      calc (rne (t * 2^((52:ℤ) - Int.log 2 t)) : ℚ) * 2^(Int.log 2 t - (52:ℤ))
          < (2:ℚ)^((53:ℤ)) * 2^(Int.log 2 t - (52:ℤ)) :=
            mul_lt_mul_of_pos_right hmq hpos
        _ = (2:ℚ)^(Int.log 2 t + 1) := by rw [two_zpow_mul]; congr 1; ring
        _ ≤ (r:ℚ) := hA
  · -- r sits inside the binade of t
    have he0 : 0 ≤ Int.log 2 t := by
      by_contra hneg
      push_neg at hneg
      have h1 : (2:ℚ)^(Int.log 2 t + 1) ≤ (2:ℚ)^((0:ℤ)) :=
        zpow_le_zpow_right₀ (by norm_num) (by omega)
      rw [zpow_zero] at h1
      linarith
  -- scaled bound: t·2^(52-e) ≤ r·2^(52-e) - r·2^(21-e)
    have hpow : (0:ℚ) < 2^((52:ℤ) - Int.log 2 t) := by positivity
    have hscb := mul_le_mul_of_nonneg_right ht (le_of_lt hpow)
    have hc4 : (r:ℚ) / 2147483648 * 2^((52:ℤ) - Int.log 2 t)
        = (r:ℚ) * 2^(21 - Int.log 2 t) := by
      rw [div_eq_mul_inv, show ((2147483648:ℚ))⁻¹ = (2:ℚ)^(-31 : ℤ) by norm_num,
        mul_assoc, two_zpow_mul]
      congr 2
      ring
    have hrgt : (2:ℚ)^(Int.log 2 t) < (r:ℚ) := lt_of_le_of_lt hA1 htr
    have h21 : (2:ℚ)^((21:ℤ)) ≤ (r:ℚ) * 2^(21 - Int.log 2 t) := by
      have hp : (0:ℚ) < 2^(21 - Int.log 2 t) := by positivity
      calc (2:ℚ)^((21:ℤ)) = 2^(Int.log 2 t) * 2^(21 - Int.log 2 t) := by
            rw [two_zpow_mul]; congr 1; ring
        _ ≤ (r:ℚ) * 2^(21 - Int.log 2 t) :=
            mul_le_mul_of_nonneg_right (le_of_lt hrgt) (le_of_lt hp)
    have h21' : (1:ℚ) ≤ (2:ℚ)^((21:ℤ)) := by norm_num
    have hmlt : (rne (t * 2^((52:ℤ) - Int.log 2 t)) : ℚ)
        < (r:ℚ) * 2^((52:ℤ) - Int.log 2 t) := by
      have hexpand : ((r:ℚ) - (r:ℚ) / 2147483648) * 2^((52:ℤ) - Int.log 2 t)
          = (r:ℚ) * 2^((52:ℤ) - Int.log 2 t)
            - (r:ℚ) / 2147483648 * 2^((52:ℤ) - Int.log 2 t) := by ring
      rw [hexpand, hc4] at hscb
      linarith
    unfold fl64_pos
    have hpos : (0:ℚ) < 2^(Int.log 2 t - (52:ℤ)) := by positivity
    calc (rne (t * 2^((52:ℤ) - Int.log 2 t)) : ℚ) * 2^(Int.log 2 t - (52:ℤ))
        < (r:ℚ) * 2^((52:ℤ) - Int.log 2 t) * 2^(Int.log 2 t - (52:ℤ)) :=
          mul_lt_mul_of_pos_right hmlt hpos
      _ = (r:ℚ) := by
          rw [mul_assoc, two_zpow_mul,
            show (52:ℤ) - Int.log 2 t + (Int.log 2 t - 52) = 0 by ring,
            zpow_zero, mul_one]

theorem fl64_le_one_sub {t : ℚ} (ht0 : 0 ≤ t) (ht : t ≤ 1 - 1/2147483647) :
    fl64 t ≤ 1 - 1/2147483648 := by
  rcases eq_or_lt_of_le ht0 with h0 | hp
  · rw [← h0, fl64_zero]
    norm_num
  · rw [fl64_of_pos hp]
    have ht1 : t < 1 := by linarith
    have hneg : Int.log 2 t < 0 := by
      by_contra hge
      push_neg at hge
      have h1 : (2:ℚ)^((0:ℤ)) ≤ (2:ℚ)^(Int.log 2 t) :=
        zpow_le_zpow_right₀ (by norm_num) hge
      rw [zpow_zero] at h1
      have h2 := two_zpow_log_le hp
      linarith
    rcases eq_or_lt_of_le (show Int.log 2 t ≤ -1 by omega) with heq | hlt2
    · -- log = -1: the significand stays at most 2^53 - 2^22
      have key : fl64_pos t = (rne (t * (2:ℚ)^((53:ℤ))) : ℚ) * (2:ℚ)^((-53:ℤ)) := by
        unfold fl64_pos
        rw [heq]
        norm_num
      have hml := rne_le_half (t * (2:ℚ)^((53:ℤ)))
      have hbig : t * (2:ℚ)^((53:ℤ)) ≤ (1 - 1/2147483647) * (2:ℚ)^((53:ℤ)) := by
        have hpw : (0:ℚ) < (2:ℚ)^((53:ℤ)) := by positivity
        exact mul_le_mul_of_nonneg_right ht (le_of_lt hpw)
      have hval : ((1:ℚ) - 1/2147483647) * (2:ℚ)^((53:ℤ)) + 1/2
          < ((2^53 - 2^22 + 1 : ℤ) : ℚ) := by norm_num
      have hub : (rne (t * (2:ℚ)^((53:ℤ))) : ℚ) < ((2^53 - 2^22 + 1 : ℤ) : ℚ) := by
        have h2 := hbig
        have h3 := hval
        have h4 := hml
        norm_num at h2 h3 h4 ⊢
        linarith
      have h1 : rne (t * (2:ℚ)^((53:ℤ))) < 2^53 - 2^22 + 1 := by exact_mod_cast hub
      have hmq : (rne (t * (2:ℚ)^((53:ℤ))) : ℚ) ≤ ((2^53 - 2^22 : ℤ) : ℚ) := by
        exact_mod_cast (by omega : rne (t * (2:ℚ)^((53:ℤ))) ≤ 2^53 - 2^22)
      rw [key]
      have hpos : (0:ℚ) ≤ (2:ℚ)^((-53:ℤ)) := by positivity
      calc (rne (t * (2:ℚ)^((53:ℤ))) : ℚ) * (2:ℚ)^((-53:ℤ))
          ≤ ((2^53 - 2^22 : ℤ) : ℚ) * (2:ℚ)^((-53:ℤ)) :=
            mul_le_mul_of_nonneg_right hmq hpos
        _ = 1 - 1/2147483648 := by norm_num
    · -- log ≤ -2: the result is at most 1/2
      calc fl64_pos t ≤ 2^(Int.log 2 t + 1) := fl64_pos_upper t
        _ ≤ (2:ℚ)^(-1 : ℤ) := zpow_le_zpow_right₀ (by norm_num) (by omega)
        _ ≤ 1 - 1/2147483648 := by norm_num

theorem wrap32_eq_self {z : ℤ} (h1 : -2^31 ≤ z) (h2 : z ≤ 2^31 - 1) :
    wrap32 z = z := by
  unfold wrap32
  omega

theorem wrap32_wrap32_add (a b : ℤ) : wrap32 (wrap32 a + b) = wrap32 (a + b) := by
  unfold wrap32
  omega

open DistributionParser

theorem process_entry_lines_error_of_bad (dtype : DistributionType) :
    ∀ (lines : List (List Char)) (count : ℕ) (entries : List DistributionEntry),
      (∃ l ∈ lines, bad_weight_line dtype l = true) →
      ∃ e, process_entry_lines dtype lines count entries = .error e := by
  intro lines
  induction lines with
  | nil => simp
  | cons l ls ih =>
    rintro count entries ⟨l', hl', hbad⟩
    rcases List.mem_cons.mp hl' with rfl | hmem
    · simp only [bad_weight_line, Bool.and_eq_true, Bool.not_eq_true',
        decide_eq_true_eq] at hbad
      obtain ⟨⟨⟨hc1, hc2⟩, hc3⟩, hc4⟩ := hbad
      simp only [process_entry_lines, hc1, hc2, Bool.false_eq_true, if_false,
        if_pos hc3]
      cases hres : parse_i32 (str_trim ((str_splitOn '|' l' []).getD 1 [])) with
      | none => exact ⟨_, rfl⟩
      | some w =>
        rw [hres] at hc4
        dsimp only at hc4
        simp only [Bool.and_eq_true, decide_eq_true_eq] at hc4
        dsimp only
        rw [if_pos hc4]
        exact ⟨_, rfl⟩
    · simp only [process_entry_lines]
      repeat' split
      all_goals first
        | exact ⟨_, rfl⟩
        | exact ih _ _ ⟨l', hmem, hbad⟩

theorem process_entry_lines_count_zero (dtype : DistributionType) :
    ∀ (lines : List (List Char)) (entries : List DistributionEntry),
      (∀ l ∈ lines, str_startsWith l "COUNT|".data = false) →
      (∃ e, process_entry_lines dtype lines 0 entries = .error e) ∨
      (∃ es, process_entry_lines dtype lines 0 entries = .ok (0, es)) := by
  intro lines
  induction lines with
  | nil => exact fun entries _ => .inr ⟨entries, rfl⟩
  | cons l ls ih =>
    intro entries hnc
    have hl : str_startsWith l "COUNT|".data = false := hnc l (by simp)
    have hls : ∀ l' ∈ ls, str_startsWith l' "COUNT|".data = false :=
      fun l' h => hnc l' (by simp [h])
    simp only [process_entry_lines, hl, Bool.false_eq_true, if_false]
    split
    · exact ih entries hls
    · split
      · split
        · exact .inl ⟨_, rfl⟩
        · split
          · exact .inl ⟨_, rfl⟩
          · exact ih _ hls
      · exact ih entries hls

theorem foldlM_append_error {α σ ε : Type} (f : σ → α → Except ε σ) :
    ∀ (pre : List α) (st0 st : σ) (l : α) (suf : List α) (e : ε),
      pre.foldlM f st0 = .ok st → f st l = .error e →
      (pre ++ l :: suf).foldlM f st0 = .error e := by
  intro pre
  induction pre with
  | nil =>
    intro st0 st l suf e h0 hf
    have hst : st0 = st := by
      simpa [List.foldlM, pure, Except.pure] using h0
    subst hst
    simp [List.foldlM, hf, Bind.bind, Except.bind]
  | cons a as ih =>
    intro st0 st l suf e h0 hf
    cases ha : f st0 a with
    | error e' =>
      rw [List.foldlM_cons, ha] at h0
      simp [Bind.bind, Except.bind] at h0
    | ok s1 =>
      rw [List.foldlM_cons, ha] at h0
      simp only [Bind.bind, Except.bind] at h0
      rw [List.cons_append, List.foldlM_cons, ha]
      simp only [Bind.bind, Except.bind]
      exact ih s1 st l suf e h0 hf

theorem begin_prefix_facts {s : List Char}
    (h : str_startsWith s "BEGIN ".data = true) :
    ¬(str_startsWith s "#".data = true ∨ s = []) := by
  cases s with
  | nil => simp [str_startsWith, List.isPrefixOf] at h
  | cons c cs =>
    have hc : c = 'B' := by
      simp only [str_startsWith, List.isPrefixOf, Bool.and_eq_true, beq_iff_eq] at h
      exact h.1.symm
    subst hc
    simp [str_startsWith, List.isPrefixOf]

theorem parse_line_duplicate (st : ParseState) (line : List Char)
    (hb : str_startsWith (str_trim line) "BEGIN ".data = true)
    (hdup : (st.distributions.lookup (str_trim ((str_trim line).drop 6))).isSome
      = true) :
    parse_line st line
      = .error (.DuplicateDistribution (str_trim ((str_trim line).drop 6))) := by
  unfold parse_line
  rw [if_neg, if_pos hb, if_pos hdup]
  rintro ⟨-, hskip⟩
  exact begin_prefix_facts hb hskip

theorem parse_append_duplicate (pre : List (List Char)) (line : List Char)
    (suf : List (List Char)) (st : ParseState)
    (hpre : pre.foldlM parse_line ⟨[], none, []⟩ = .ok st)
    (hb : str_startsWith (str_trim line) "BEGIN ".data = true)
    (hdup : (st.distributions.lookup (str_trim ((str_trim line).drop 6))).isSome
      = true) :
    ∃ e, parse (pre ++ line :: suf) = .error e := by
  refine ⟨.DuplicateDistribution (str_trim ((str_trim line).drop 6)), ?_⟩
  unfold parse
  rw [foldlM_append_error parse_line pre _ st line suf _ hpre
    (parse_line_duplicate st line hb hdup)]
  rfl

theorem validate_ok_length {stored stored' : List (List Char × Distribution)}
    {dist : Distribution} {lines : List (List Char)}
    (h : validate_and_store_distribution stored dist lines = .ok stored')
    (hstored : ∀ p ∈ stored, (p : List Char × Distribution).2.entries.length
      = p.2.count) :
    ∀ p ∈ stored', (p : List Char × Distribution).2.entries.length
      = p.2.count := by
  simp only [validate_and_store_distribution] at h
  split at h
  · simp at h
  · split at h
    · simp at h
    · split at h
      · simp at h
      · split at h
        · simp at h
        · rename_i count entries hproc hcount hlen
          simp only [Except.ok.injEq] at h
          subst h
          intro p hp
          rcases List.mem_cons.mp hp with rfl | hmem
          · simpa using Classical.not_not.mp (by simpa using hlen)
          · exact hstored p hmem

theorem parse_line_inv {st st' : ParseState} {line : List Char}
    (h : parse_line st line = .ok st')
    (hinv : ∀ p ∈ st.distributions, (p : List Char × Distribution).2.entries.length
      = p.2.count) :
    ∀ p ∈ st'.distributions, (p : List Char × Distribution).2.entries.length
      = p.2.count := by
  obtain ⟨dists, cur, blines⟩ := st
  simp only at hinv
  cases cur with
  | none =>
    simp only [parse_line, Option.isNone_none, true_and] at h
    split at h
    · simp only [Except.ok.injEq] at h
      subst h
      exact hinv
    · split at h
      · split at h
        · simp at h
        · simp only [Except.ok.injEq] at h
          subst h
          exact hinv
      · split at h
        · simp only [Except.ok.injEq] at h
          subst h
          exact hinv
        · split at h
          · simp only [Except.ok.injEq] at h
            subst h
            exact hinv
          · simp only [Except.ok.injEq] at h
            subst h
            exact hinv
  | some dist =>
    simp only [parse_line, Option.isNone_some, Bool.false_eq_true, false_and,
      if_false] at h
    split at h
    · split at h
      · simp at h
      · simp only [Except.ok.injEq] at h
        subst h
        exact hinv
    · split at h
      · split at h
        · simp at h
        · rename_i stored hval
          simp only [Except.ok.injEq] at h
          subst h
          exact validate_ok_length hval hinv
      · split at h
        · simp only [Except.ok.injEq] at h
          subst h
          exact hinv
        · simp only [Except.ok.injEq] at h
          subst h
          exact hinv

theorem parse_foldlM_inv :
    ∀ (input : List (List Char)) (st0 stF : ParseState),
      input.foldlM parse_line st0 = .ok stF →
      (∀ p ∈ st0.distributions, (p : List Char × Distribution).2.entries.length
        = p.2.count) →
      ∀ p ∈ stF.distributions, (p : List Char × Distribution).2.entries.length
        = p.2.count := by
  intro input
  induction input with
  | nil =>
    intro st0 stF h h0
    have : st0 = stF := by simpa [List.foldlM, pure, Except.pure] using h
    subst this
    exact h0
  | cons a as ih =>
    intro st0 stF h h0
    cases ha : parse_line st0 a with
    | error e =>
      rw [List.foldlM_cons, ha] at h
      simp [Bind.bind, Except.bind] at h
    | ok s1 =>
      rw [List.foldlM_cons, ha] at h
      simp only [Bind.bind, Except.bind] at h
      exact ih s1 stF h (parse_line_inv ha h0)

theorem validate_error_of_bad_line (stored : List (List Char × Distribution))
    (dist : Distribution) (lines : List (List Char))
    (hbad : ∃ l ∈ lines,
      bad_weight_line (determine_distribution_type dist.name) l = true) :
    ∃ e, validate_and_store_distribution stored dist lines = .error e := by
  have hne : lines.isEmpty = false := by
    obtain ⟨l, hl, -⟩ := hbad
    cases lines with
    | nil => simp at hl
    | cons a as => rfl
  obtain ⟨e, he⟩ :=
    process_entry_lines_error_of_bad (determine_distribution_type dist.name)
      lines dist.count dist.entries hbad
  refine ⟨e, ?_⟩
  simp only [validate_and_store_distribution, hne, Bool.false_eq_true, if_false,
    he]

theorem validate_error_of_no_count (stored : List (List Char × Distribution))
    (dist : Distribution) (lines : List (List Char)) (hc : dist.count = 0)
    (hnc : ∀ l ∈ lines, str_startsWith l "COUNT|".data = false) :
    ∃ e, validate_and_store_distribution stored dist lines = .error e := by
  cases hLE : lines.isEmpty with
  | true =>
    exact ⟨.EmptyDistribution dist.name, by
      simp only [validate_and_store_distribution, hLE, if_true]⟩
  | false =>
    rcases process_entry_lines_count_zero (determine_distribution_type dist.name)
        lines dist.entries hnc with ⟨e, he⟩ | ⟨es, hok⟩
    · refine ⟨e, ?_⟩
      simp only [validate_and_store_distribution, hLE, Bool.false_eq_true,
        if_false, hc, he]
    · refine ⟨.MissingCount, ?_⟩
      simp only [validate_and_store_distribution, hLE, Bool.false_eq_true,
        if_false, hc, hok]
      simp

theorem validate_error_of_empty (stored : List (List Char × Distribution))
    (dist : Distribution) :
    ∃ e, validate_and_store_distribution stored dist [] = .error e :=
  ⟨.EmptyDistribution dist.name, by
    simp [validate_and_store_distribution]⟩

theorem validate_error_of_mismatch (stored : List (List Char × Distribution))
    (dist : Distribution) (lines : List (List Char)) (n : ℕ)
    (es : List DistributionEntry)
    (hok : process_entry_lines (determine_distribution_type dist.name) lines
      dist.count dist.entries = .ok (n, es))
    (hbad : n = 0 ∨ es.length ≠ n) :
    ∃ e, validate_and_store_distribution stored dist lines = .error e := by
  cases hLE : lines.isEmpty with
  | true =>
    exact ⟨.EmptyDistribution dist.name, by
      simp only [validate_and_store_distribution, hLE, if_true]⟩
  | false =>
    by_cases hn : n = 0
    · refine ⟨.MissingCount, ?_⟩
      subst hn
      simp only [validate_and_store_distribution, hLE, Bool.false_eq_true,
        if_false, hok]
      simp
    · have hlen : es.length ≠ n := hbad.resolve_left hn
      refine ⟨.InvalidFormat "Entry count mismatch".data, ?_⟩
      simp only [validate_and_store_distribution, hLE, Bool.false_eq_true,
        if_false, hok, if_neg hn, if_pos hlen]

theorem parse_ok_counts (input : List (List Char))
    (m : List (List Char × Distribution)) (h : parse input = .ok m) :
    ∀ p ∈ m, (p : List Char × Distribution).2.entries.length = p.2.count := by
  unfold parse at h
  cases hF : input.foldlM parse_line ⟨[], none, []⟩ with
  | error e =>
    rw [hF] at h
    simp [Except.map] at h
  | ok stF =>
    rw [hF] at h
    simp only [Except.map, Except.ok.injEq] at h
    subst h
    exact parse_foldlM_inv input _ stF hF (by simp)

/-! ## The claims -/

/-- C1: for every non-negative starting seed `s` and bounds `lo ≤ hi`, the
32-bit RNG's `next_int lo hi` first advances the state to
`s' = (s × 16807) mod (2^31 − 1)` and then returns
`lo + trunc(((s' as f64) / (2^31 − 1)) × r)`, where the range
`r = hi − lo + 1` is computed in 32-bit signed arithmetic so that it
overflows exactly as the reference implementation does (for `lo = 0`,
`hi = 2^31 − 1` it wraps to `−2^31`); the final addition of `lo` is the
same 32-bit machine addition.  The theorem covers both `TpchRng::next_int`
(rng.rs, which widens to `i64` before adding 1) and
`AbstractRandomInt::next_int` (textgen.rs, which adds 1 in `i32`): both
reduce to a single 32-bit wrap of `hi − lo + 1`. -/
theorem next_int_formula (s lo hi : ℤ) (hs : 0 ≤ s) (hle : lo ≤ hi) :
    TpchRng.next_int s lo hi
        = (wrap32 (lo + f64_to_i32 (fl64 (fl64
              (((s * 16807 % (2^31 - 1) : ℤ) : ℚ) / ((2:ℚ)^31 - 1)) *
            ((wrap32 (hi - lo + 1) : ℤ) : ℚ)))),
           s * 16807 % (2^31 - 1)) ∧
    AbstractRandomInt.next_int s lo hi
        = (wrap32 (lo + f64_to_i32 (fl64 (fl64
              (((s * 16807 % (2^31 - 1) : ℤ) : ℚ) / ((2:ℚ)^31 - 1)) *
            ((wrap32 (hi - lo + 1) : ℤ) : ℚ)))),
           s * 16807 % (2^31 - 1)) := by
  have h1 : TpchRng.next_int s lo hi
      = (wrap32 (lo + f64_to_i32 (fl64 (fl64 ((TpchRng.next_rand s : ℚ) /
          ((TpchRng.MODULUS : ℤ) : ℚ)) *
            ((wrap32 (wrap32 (hi - lo) + 1) : ℤ) : ℚ)))),
         TpchRng.next_rand s) := rfl
  have h2 : AbstractRandomInt.next_int s lo hi = TpchRng.next_int s lo hi := rfl
  have h3 : TpchRng.next_rand s = s * 16807 % (2^31 - 1) := by
    norm_num [TpchRng.next_rand, TpchRng.MULTIPLIER, TpchRng.MODULUS]
  have h4 : ((TpchRng.MODULUS : ℤ) : ℚ) = (2:ℚ)^31 - 1 := by
    norm_num [TpchRng.MODULUS]
  rw [h2, h1, h3, h4, wrap32_wrap32_add]
  exact ⟨rfl, rfl⟩

/-- Witness for C1 at seed 1, bounds `[0, 9]`. -/
theorem next_int_formula_witness :
    TpchRng.next_int 1 0 9
        = (wrap32 (0 + f64_to_i32 (fl64 (fl64
              (((1 * 16807 % (2^31 - 1) : ℤ) : ℚ) / ((2:ℚ)^31 - 1)) *
            ((wrap32 (9 - 0 + 1) : ℤ) : ℚ)))),
           1 * 16807 % (2^31 - 1)) ∧
    AbstractRandomInt.next_int 1 0 9
        = (wrap32 (0 + f64_to_i32 (fl64 (fl64
              (((1 * 16807 % (2^31 - 1) : ℤ) : ℚ) / ((2:ℚ)^31 - 1)) *
            ((wrap32 (9 - 0 + 1) : ℤ) : ℚ)))),
           1 * 16807 % (2^31 - 1)) :=
  next_int_formula 1 0 9 (by norm_num) (by norm_num)

/-- C9: whenever `lo ≤ hi` are valid `i32` bounds, the starting seed is in
`[0, 2^31 − 2]`, and `hi − lo + 1` does not overflow a signed 32-bit
integer, `next_int lo hi` returns a value inside `[lo, hi]` (for both
`TpchRng` and `AbstractRandomInt`): the first rounding maps the seed
quotient into `[0, 1 − 2^-31]`, so the scaled and truncated draw stays
strictly below the range width. -/
theorem next_int_in_range (s lo hi : ℤ) (hs0 : 0 ≤ s) (hs1 : s ≤ 2^31 - 2)
    (hlo : -2^31 ≤ lo) (hhi : hi ≤ 2^31 - 1) (hle : lo ≤ hi)
    (hrange : hi - lo + 1 ≤ 2^31 - 1) :
    (lo ≤ (TpchRng.next_int s lo hi).1 ∧ (TpchRng.next_int s lo hi).1 ≤ hi) ∧
    (lo ≤ (AbstractRandomInt.next_int s lo hi).1 ∧
      (AbstractRandomInt.next_int s lo hi).1 ≤ hi) := by
  have hs'0 : 0 ≤ TpchRng.next_rand s :=
    Int.emod_nonneg _ (by norm_num [TpchRng.MODULUS])
  have hs'lt : TpchRng.next_rand s < 2147483647 := by
    have := Int.emod_lt_of_pos (s * TpchRng.MULTIPLIER)
      (show (0:ℤ) < TpchRng.MODULUS by norm_num [TpchRng.MODULUS])
    simpa [TpchRng.next_rand, TpchRng.MODULUS] using this
  have hr_eq : wrap32 (wrap32 (hi - lo) + 1) = hi - lo + 1 := by
    rw [wrap32_wrap32_add]
    exact wrap32_eq_self (by omega) (by omega)
  have hMcast : ((TpchRng.MODULUS : ℤ) : ℚ) = 2147483647 := by
    norm_num [TpchRng.MODULUS]
  -- the first f64 step: fl64 of the seed quotient lies in [0, 1 - 2^-31]
  have hq0 : (0:ℚ) ≤ (TpchRng.next_rand s : ℚ) / 2147483647 := by
    have : (0:ℚ) ≤ (TpchRng.next_rand s : ℚ) := by exact_mod_cast hs'0
    positivity
  have hqle : (TpchRng.next_rand s : ℚ) / 2147483647 ≤ 1 - 1/2147483647 := by
    have hlt : (TpchRng.next_rand s : ℚ) ≤ 2147483646 := by
      exact_mod_cast (by omega : TpchRng.next_rand s ≤ 2147483646)
    rw [show (1:ℚ) - 1/2147483647 = 2147483646/2147483647 by norm_num]
    exact div_le_div_of_nonneg_right hlt (by norm_num) |>.trans_eq rfl
  have hx0 : 0 ≤ fl64 ((TpchRng.next_rand s : ℚ) / 2147483647) :=
    fl64_nonneg hq0
  have hx1 : fl64 ((TpchRng.next_rand s : ℚ) / 2147483647) ≤ 1 - 1/2147483648 :=
    fl64_le_one_sub hq0 hqle
  -- the second f64 step: fl64 of the scaled draw lies in [0, r)
  have hr1 : (1:ℤ) ≤ hi - lo + 1 := by omega
  have hr2 : hi - lo + 1 ≤ 2147483647 := by omega
  have hrQ0 : (0:ℚ) ≤ ((hi - lo + 1 : ℤ) : ℚ) := by exact_mod_cast by omega
  have hy0 : 0 ≤ fl64 (fl64 ((TpchRng.next_rand s : ℚ) / 2147483647) *
      ((hi - lo + 1 : ℤ) : ℚ)) :=
    fl64_nonneg (mul_nonneg hx0 hrQ0)
  have hy1 : fl64 (fl64 ((TpchRng.next_rand s : ℚ) / 2147483647) *
      ((hi - lo + 1 : ℤ) : ℚ)) < ((hi - lo + 1 : ℤ) : ℚ) := by
    rcases eq_or_lt_of_le (mul_nonneg hx0 hrQ0) with hz | hpos
    · rw [← hz, fl64_zero]
      exact_mod_cast hr1
    · rw [fl64_of_pos hpos]
      refine fl64_pos_lt_bound hr1 hr2 hpos ?_
      have hstep : fl64 ((TpchRng.next_rand s : ℚ) / 2147483647) *
          ((hi - lo + 1 : ℤ) : ℚ)
          ≤ (1 - 1/2147483648) * ((hi - lo + 1 : ℤ) : ℚ) :=
        mul_le_mul_of_nonneg_right hx1 hrQ0
      calc fl64 ((TpchRng.next_rand s : ℚ) / 2147483647) *
            ((hi - lo + 1 : ℤ) : ℚ)
          ≤ (1 - 1/2147483648) * ((hi - lo + 1 : ℤ) : ℚ) := hstep
        _ = ((hi - lo + 1 : ℤ) : ℚ) - ((hi - lo + 1 : ℤ) : ℚ) / 2147483648 := by
            ring
  -- hence the truncated value lies in [0, r - 1]
  have hfl0 : 0 ≤ ⌊fl64 (fl64 ((TpchRng.next_rand s : ℚ) / 2147483647) *
      ((hi - lo + 1 : ℤ) : ℚ))⌋ := Int.floor_nonneg.mpr hy0
  have hfl1 : ⌊fl64 (fl64 ((TpchRng.next_rand s : ℚ) / 2147483647) *
      ((hi - lo + 1 : ℤ) : ℚ))⌋ < hi - lo + 1 := Int.floor_lt.mpr hy1
  have hc : f64_to_i32 (fl64 (fl64 ((TpchRng.next_rand s : ℚ) / 2147483647) *
      ((hi - lo + 1 : ℤ) : ℚ)))
      = ⌊fl64 (fl64 ((TpchRng.next_rand s : ℚ) / 2147483647) *
          ((hi - lo + 1 : ℤ) : ℚ))⌋ := by
    unfold f64_to_i32
    rw [if_pos hy0]
    omega
  have heval : (TpchRng.next_int s lo hi).1
      = wrap32 (lo + f64_to_i32 (fl64 (fl64 ((TpchRng.next_rand s : ℚ) /
          ((TpchRng.MODULUS : ℤ) : ℚ)) *
            ((wrap32 (wrap32 (hi - lo) + 1) : ℤ) : ℚ)))) := rfl
  have main : lo ≤ (TpchRng.next_int s lo hi).1 ∧
      (TpchRng.next_int s lo hi).1 ≤ hi := by
    rw [heval, hMcast, hr_eq, hc, wrap32_eq_self (by omega) (by omega)]
    omega
  exact ⟨main,
    (show AbstractRandomInt.next_int s lo hi = TpchRng.next_int s lo hi
      from rfl) ▸ main⟩

/-- Witness for C9 at seed 5, bounds `[0, 9]`. -/
theorem next_int_in_range_witness :
    (0 ≤ (TpchRng.next_int 5 0 9).1 ∧ (TpchRng.next_int 5 0 9).1 ≤ 9) ∧
    (0 ≤ (AbstractRandomInt.next_int 5 0 9).1 ∧
      (AbstractRandomInt.next_int 5 0 9).1 ≤ 9) :=
  next_int_in_range 5 0 9 (by norm_num) (by norm_num) (by norm_num)
    (by norm_num) (by norm_num) (by norm_num)

/-- C2: for every non-negative seed `s` and every count `n ≥ 0`, the
fast-forward `advance_seed n` (binary exponentiation of the multiplier
16807 modulo `2^31 − 1`) equals `n` sequential applications of the
single-step update `next_rand`; hence `advance_rows` called at a row
boundary (usage 0) advances the state by `row_count × usage_per_row`
sequential steps.  (`AbstractRandomInt::advance_seed` in textgen.rs lines
68-91 is the identical algorithm.) -/
theorem advance_seed_eq_sequential (s : ℤ) (hs : 0 ≤ s) :
    (∀ n : ℕ, TpchRng.advance_seed s n = TpchRng.next_rand^[n] s) ∧
    (∀ expected_usage_per_row row_count : ℕ,
      TpchRng.advance_rows s expected_usage_per_row 0 row_count
        = TpchRng.next_rand^[expected_usage_per_row * row_count] s) := by
  have key : ∀ n : ℕ, TpchRng.advance_seed s n = TpchRng.next_rand^[n] s := by
    intro n
    by_cases hn : n = 0
    · subst hn
      rw [TpchRng.advance_seed, TpchRng.advance_seed_loop]
      simp
    · rw [TpchRng.advance_seed, advance_seed_loop_eq n hn,
        next_rand_iterate s n hn]
  exact ⟨key, fun upr rc => by
    unfold TpchRng.advance_rows
    rw [if_neg (by simp)]
    exact key (upr * rc)⟩

/-- Witness for C2 at the default seed 19650218: skipping 5 draws, and
skipping 3 rows of 7 draws each. -/
theorem advance_seed_eq_sequential_witness :
    TpchRng.advance_seed 19650218 5 = TpchRng.next_rand^[5] 19650218 ∧
    TpchRng.advance_rows 19650218 7 0 3 = TpchRng.next_rand^[7 * 3] 19650218 :=
  ⟨(advance_seed_eq_sequential 19650218 (by decide)).1 5,
   (advance_seed_eq_sequential 19650218 (by decide)).2 7 3⟩

/-- C3: for every dense order index `x ≥ 1`, `make_order_key x` equals
`((x >> 3) << 5) + (x & 7)`, and consequently every emitted `o_orderkey`
(which is `make_order_key` of an index ≥ 1) is congruent to one of
`0..7` modulo 32. -/
theorem make_order_key_formula (x : ℕ) (hx : 1 ≤ x) :
    OrderGenerator.make_order_key x = (x >>> 3) <<< 5 + (x &&& 7) ∧
    OrderGenerator.make_order_key x % 32 < 8 := by
  have hmask : x &&& 7 = x % 8 := by
    have h := Nat.and_pow_two_sub_one_eq_mod x 3
    norm_num at h
    exact h
  simp only [OrderGenerator.make_order_key, OrderGenerator.ORDER_KEY_SPARSE_KEEP,
    OrderGenerator.ORDER_KEY_SPARSE_BITS, Nat.shiftLeft_eq, Nat.shiftRight_eq_div_pow]
  norm_num [hmask]
  omega

/-- Witness for C3 at the concrete index 12: `make_order_key 12 = 36`. -/
theorem make_order_key_formula_witness :
    OrderGenerator.make_order_key 12 = (12 >>> 3) <<< 5 + (12 &&& 7) ∧
    OrderGenerator.make_order_key 12 % 32 < 8 :=
  make_order_key_formula 12 (by decide)

/-- C10: `make_order_key` is strictly increasing on dense indices ≥ 1,
hence injective, so distinct order rows receive distinct `o_orderkey`
values. -/
theorem make_order_key_strict_mono (x₁ x₂ : ℕ) (h₁ : 1 ≤ x₁) (h : x₁ < x₂) :
    OrderGenerator.make_order_key x₁ < OrderGenerator.make_order_key x₂ := by
  have hm1 : x₁ &&& 7 = x₁ % 8 := by
    have h := Nat.and_pow_two_sub_one_eq_mod x₁ 3; norm_num at h; exact h
  have hm2 : x₂ &&& 7 = x₂ % 8 := by
    have h := Nat.and_pow_two_sub_one_eq_mod x₂ 3; norm_num at h; exact h
  simp only [OrderGenerator.make_order_key, OrderGenerator.ORDER_KEY_SPARSE_KEEP,
    OrderGenerator.ORDER_KEY_SPARSE_BITS, Nat.shiftLeft_eq, Nat.shiftRight_eq_div_pow]
  norm_num [hm1, hm2]
  omega

/-- Witness for C10 at the concrete indices 7 < 8 (which straddle a sparse
gap: the keys are 7 and 32). -/
theorem make_order_key_strict_mono_witness :
    OrderGenerator.make_order_key 7 < OrderGenerator.make_order_key 8 :=
  make_order_key_strict_mono 7 8 (by decide) (by decide)

/-- C4: for every part key `pk ≥ 1`, `calculate_part_price pk` is
`90000 + ((pk/10) mod 20001) + (pk mod 1000) * 100` cents, and in
particular takes the values 90100, 91001, 100010 and 90100 at part keys
1, 10, 100 and 1000. -/
theorem calculate_part_price_values (pk : ℤ) (hpk : 1 ≤ pk) :
    PartGeneratorIterator.calculate_part_price pk
        = 90000 + pk / 10 % 20001 + pk % 1000 * 100 ∧
    PartGeneratorIterator.calculate_part_price 1 = 90100 ∧
    PartGeneratorIterator.calculate_part_price 10 = 91001 ∧
    PartGeneratorIterator.calculate_part_price 100 = 100010 ∧
    PartGeneratorIterator.calculate_part_price 1000 = 90100 :=
  ⟨rfl, by decide, by decide, by decide, by decide⟩

/-- Witness for C4 at the concrete part key 12345:
`calculate_part_price 12345 = 90000 + 1234 + 345 * 100 = 125734`. -/
theorem calculate_part_price_values_witness :
    PartGeneratorIterator.calculate_part_price 12345
        = 90000 + 12345 / 10 % 20001 + 12345 % 1000 * 100 ∧
    PartGeneratorIterator.calculate_part_price 1 = 90100 ∧
    PartGeneratorIterator.calculate_part_price 10 = 91001 ∧
    PartGeneratorIterator.calculate_part_price 100 = 100010 ∧
    PartGeneratorIterator.calculate_part_price 1000 = 90100 :=
  calculate_part_price_values 12345 (by decide)

/-- C5: for every part key `pk ≥ 1`, supplier number `sn ∈ [0, 3]` and
supplier count `S = ⌊10000 × SF⌋ ≥ 1`, `select_part_supplier` computes
`((pk + sn × (S/4 + (pk−1)/S)) mod S) + 1` (all divisions integer, all
operands non-negative), and the result lies in `[1, S]`, so every
generated `ps_suppkey` / `l_suppkey` references an existing supplier. -/
theorem select_part_supplier_formula (pk sn S : ℤ) (hpk : 1 ≤ pk)
    (hsn₀ : 0 ≤ sn) (hsn₃ : sn ≤ 3) (hS : 1 ≤ S) :
    PartSuppGenerator.select_part_supplier pk sn S
        = (pk + sn * (S / 4 + (pk - 1) / S)) % S + 1 ∧
    0 ≤ pk + sn * (S / 4 + (pk - 1) / S) ∧
    1 ≤ PartSuppGenerator.select_part_supplier pk sn S ∧
    PartSuppGenerator.select_part_supplier pk sn S ≤ S := by
  have e : PartSuppGenerator.select_part_supplier pk sn S
      = (pk + sn * (S / 4 + (pk - 1) / S)) % S + 1 := rfl
  have hq1 : 0 ≤ S / 4 := Int.ediv_nonneg (by omega) (by omega)
  have hq2 : 0 ≤ (pk - 1) / S := Int.ediv_nonneg (by omega) (by omega)
  have hidx : 0 ≤ pk + sn * (S / 4 + (pk - 1) / S) := by positivity
  have h0 : 0 ≤ (pk + sn * (S / 4 + (pk - 1) / S)) % S :=
    Int.emod_nonneg _ (by omega)
  have h1 : (pk + sn * (S / 4 + (pk - 1) / S)) % S < S :=
    Int.emod_lt_of_pos _ (by omega)
  refine ⟨e, hidx, ?_, ?_⟩ <;> rw [e] <;> linarith

/-- Witness for C5 at part key 6, supplier number 3, supplier count 100
(scale factor 0.01). -/
theorem select_part_supplier_formula_witness :
    PartSuppGenerator.select_part_supplier 6 3 100
        = (6 + 3 * (100 / 4 + (6 - 1) / 100)) % 100 + 1 ∧
    0 ≤ 6 + 3 * ((100 : ℤ) / 4 + (6 - 1) / 100) ∧
    1 ≤ PartSuppGenerator.select_part_supplier 6 3 100 ∧
    PartSuppGenerator.select_part_supplier 6 3 100 ≤ 100 :=
  select_part_supplier_formula 6 3 100 (by decide) (by decide) (by decide)
    (by decide)

/-- C6: for every total row count `T = ⌊scale_base × scale_factor⌋` and
part count `K ≥ 1`, the partition bookkeeping is gapless and exhaustive:
part 1 starts at index 0, each next part starts where the previous one
ended (only the last part absorbs the remainder), and the row counts of
parts `1..K` sum to `T`, so the `K` partitions concatenate to exactly the
single-partition range. -/
theorem partition_bookkeeping (T K : ℕ) (hK : 1 ≤ K) :
    GenerateUtils.calculate_start_index T 1 K = 0 ∧
    (∀ p, 1 ≤ p → p < K →
      GenerateUtils.calculate_start_index T (p + 1) K =
        GenerateUtils.calculate_start_index T p K +
          GenerateUtils.calculate_row_count T p K) ∧
    (Finset.Icc 1 K).sum (fun p => GenerateUtils.calculate_row_count T p K)
      = T := by
  refine ⟨by simp [GenerateUtils.calculate_start_index], ?_, ?_⟩
  · intro p hp1 hpK
    obtain ⟨p', rfl⟩ : ∃ p', p = p' + 1 := ⟨p - 1, by omega⟩
    simp only [GenerateUtils.calculate_start_index,
      GenerateUtils.calculate_row_count, if_neg (by omega : ¬p' + 1 = K),
      Nat.add_sub_cancel]
    ring
  · obtain ⟨k, rfl⟩ : ∃ k, K = k + 1 := ⟨K - 1, by omega⟩
    rw [Finset.sum_Icc_succ_top (by omega : 1 ≤ k + 1)]
    have hconst : ∀ p ∈ Finset.Icc 1 k,
        GenerateUtils.calculate_row_count T p (k + 1) = T / (k + 1) := by
      intro p hp
      simp only [Finset.mem_Icc] at hp
      unfold GenerateUtils.calculate_row_count
      rw [if_neg (by omega : ¬p = k + 1)]
    rw [Finset.sum_congr rfl hconst, Finset.sum_const, Nat.card_Icc,
      smul_eq_mul, Nat.add_sub_cancel]
    unfold GenerateUtils.calculate_row_count
    rw [if_pos rfl]
    have hdm := Nat.div_add_mod T (k + 1)
    have hexp : k * (T / (k + 1)) + (T / (k + 1) + T % (k + 1))
        = (k + 1) * (T / (k + 1)) + T % (k + 1) := by ring
    omega

/-- Witness for C6 at total row count 10 split into 3 parts
(row counts 3, 3, 4). -/
theorem partition_bookkeeping_witness :
    GenerateUtils.calculate_start_index 10 1 3 = 0 ∧
    (∀ p, 1 ≤ p → p < 3 →
      GenerateUtils.calculate_start_index 10 (p + 1) 3 =
        GenerateUtils.calculate_start_index 10 p 3 +
          GenerateUtils.calculate_row_count 10 p 3) ∧
    (Finset.Icc 1 3).sum (fun p => GenerateUtils.calculate_row_count 10 p 3)
      = 10 :=
  partition_bookkeeping 10 3 (by decide)

/-- C7: for every `max_custkey ≥ 1` and drawn key in `[1, max_custkey]`,
the customer-mortality adjustment loop terminates (two iterations of fuel
always suffice), and the key it produces is not divisible by 3 and lies in
`[1, max_custkey]`. -/
theorem mortality_adjustment_spec (max_customer_key ck : ℤ)
    (hmax : 1 ≤ max_customer_key) (h1 : 1 ≤ ck)
    (h2 : ck ≤ max_customer_key) :
    ∃ r, (∀ fuel, 2 ≤ fuel →
        OrderGenerator.mortality_adjust fuel max_customer_key ck 1 = some r) ∧
      r % 3 ≠ 0 ∧ 1 ≤ r ∧ r ≤ max_customer_key := by
  have hmort : OrderGenerator.CUSTOMER_MORTALITY = 3 := rfl
  by_cases h : ck % 3 = 0
  · by_cases hcl : max_customer_key < ck + 1
    · have hck : ck = max_customer_key := by omega
      subst hck
      refine ⟨ck + -1, ?_, by omega, by omega, by omega⟩
      intro fuel hf
      obtain ⟨f, rfl⟩ : ∃ f, fuel = f + 2 := ⟨fuel - 2, by omega⟩
      rw [mortality_adjust_step _ _ _ _ (by rw [hmort]; omega)]
      rw [if_pos (by omega)]
      rw [mortality_adjust_step _ _ _ _ (by rw [hmort]; omega)]
      rw [if_neg (by omega)]
      rw [mortality_adjust_exit _ _ _ _ (by rw [hmort]; omega)]
    · refine ⟨ck + 1, ?_, by omega, by omega, by omega⟩
      intro fuel hf
      obtain ⟨f, rfl⟩ : ∃ f, fuel = f + 2 := ⟨fuel - 2, by omega⟩
      rw [mortality_adjust_step _ _ _ _ (by rw [hmort]; omega)]
      rw [if_neg hcl]
      rw [mortality_adjust_exit _ _ _ _ (by rw [hmort]; omega)]
  · exact ⟨ck, fun fuel _ => mortality_adjust_exit fuel _ _ _
      (by rw [hmort]; omega), by omega, h1, h2⟩

/-- Witness for C7 at `max_custkey = 9`, drawn key 9 (the clamping case:
the loop ends at 8). -/
theorem mortality_adjustment_spec_witness :
    ∃ r, (∀ fuel, 2 ≤ fuel →
        OrderGenerator.mortality_adjust fuel 9 9 1 = some r) ∧
      r % 3 ≠ 0 ∧ 1 ≤ r ∧ r ≤ 9 :=
  mortality_adjustment_spec 9 9 (by decide) (by decide) (by decide)

/-- C8 (amended): the distribution loader rejects, storing nothing for the
offending block, every block closed by an `END` line that contains an entry
whose weight does not parse as an integer or is non-positive in a `Regular`
distribution (first conjunct); every closed block whose initial count is 0
and that has no `COUNT|` line (second conjunct); every empty closed block
(third conjunct); and every closed block whose processed entry list does not
match a non-zero declared count (fourth conjunct).  `parse` errors when a
`BEGIN` line reopens a name that is already stored (fifth conjunct), and
when `parse` succeeds every stored distribution has exactly its declared
count of entries (sixth conjunct).  (A `BEGIN` met while a block is still
open silently discards the open block, which is why the duplicate-open
condition is relative to the stored map — see the counterexample.) -/
theorem distribution_loader_spec :
    (∀ stored dist lines,
      (∃ l ∈ lines,
        bad_weight_line (determine_distribution_type dist.name) l = true) →
      ∃ e, validate_and_store_distribution stored dist lines = .error e) ∧
    (∀ stored dist lines, dist.count = 0 →
      (∀ l ∈ lines, str_startsWith l "COUNT|".data = false) →
      ∃ e, validate_and_store_distribution stored dist lines = .error e) ∧
    (∀ stored dist,
      ∃ e, validate_and_store_distribution stored dist [] = .error e) ∧
    (∀ stored dist lines n es,
      process_entry_lines (determine_distribution_type dist.name) lines
        dist.count dist.entries = .ok (n, es) →
      n = 0 ∨ es.length ≠ n →
      ∃ e, validate_and_store_distribution stored dist lines = .error e) ∧
    (∀ pre line suf st,
      List.foldlM parse_line ⟨[], none, []⟩ pre = .ok st →
      str_startsWith (str_trim line) "BEGIN ".data = true →
      (st.distributions.lookup (str_trim ((str_trim line).drop 6))).isSome
        = true →
      ∃ e, parse (pre ++ line :: suf) = .error e) ∧
    (∀ input m, parse input = .ok m →
      ∀ p ∈ m, (p : List Char × Distribution).2.entries.length = p.2.count) :=
  ⟨validate_error_of_bad_line, validate_error_of_no_count,
   validate_error_of_empty, validate_error_of_mismatch,
   parse_append_duplicate, parse_ok_counts⟩

/-- C8 counterexample: a distribution name opened twice is NOT always an
error — when the first `BEGIN x` is never closed, a second `BEGIN x`
silently discards the first block and `parse` succeeds, refuting the claim
that `parse` returns an error whenever a distribution name is opened
twice. -/
theorem distribution_duplicate_open_not_error :
    (parse ["BEGIN x".data, "BEGIN x".data, "COUNT|1".data, "a|1".data,
      "END x".data]).isOk = true := by decide

/-- Witness for C8 at a concrete block whose single entry has the
unparseable weight `zz`. -/
theorem distribution_loader_spec_witness :
    ∃ e, validate_and_store_distribution []
      ⟨"x".data, 0, [], .Regular⟩ ["a|zz".data] = .error e :=
  distribution_loader_spec.1 [] ⟨"x".data, 0, [], .Regular⟩ ["a|zz".data]
    (by decide)

/-- Companion check: once the first `x` block is closed and stored, a
second `BEGIN x` does fail with `DuplicateDistribution`. -/
theorem distribution_duplicate_error_check :
    (parse ["BEGIN x".data, "COUNT|1".data, "a|1".data, "END x".data,
      "BEGIN x".data]).isOk = false := by decide
